import Mathlib

/-!
# Verification of the boundary-merge core (src/join-geojson.mjs)

A shallow embedding of the geometric core of the repository: the Feature
Merger (`mergeGeoJSONFeatures`), the Polygon Unifier (`getOuterBoundary`),
and the Convex Hull Builder (`createBoundaryFromPoints`), together with
models of the two geometry-kernel operations the source delegates to
(`turf.union` and `turf.convex`), which belong to an external library and
are modelled from the specification.

Coordinates are modelled as exact rationals standing for the floating-point
numbers of the source.
-/

namespace JoinGeoJSON

/-- A coordinate pair (longitude, latitude). -/
abbrev Coord := ℚ × ℚ

/-- GeoJSON geometry, restricted to the variants the program handles
(spec data model: Point, LineString, Polygon, MultiPolygon).  A Polygon is
a list of linear rings (outer ring first, then holes); a MultiPolygon is a
list of polygon parts. -/
inductive Geometry where
  | point (c : Coord)
  | lineString (cs : List Coord)
  | polygon (rings : List (List Coord))
  | multiPolygon (parts : List (List (List Coord)))
deriving DecidableEq

/-- A GeoJSON Feature: a geometry plus an opaque property map that the core
passes through untouched. -/
structure Feature where
  geometry : Geometry
  properties : List (String × String) := []
deriving DecidableEq

/-- A GeoJSON FeatureCollection: an ordered sequence of features. -/
structure FeatureCollection where
  features : List Feature
deriving DecidableEq

/-- Errors signalled by the core.  The source throws JavaScript `Error`
values; the spec classifies them as ValidationError (precondition
violations) and GeometryError (failed geometric operations). -/
inductive CoreError where
  | validation (msg : String)
  | geometry (msg : String)
deriving DecidableEq

/-- `mergeGeoJSONFeatures` (src/join-geojson.mjs lines 30 to 33):
`geojsons.filter(Boolean).flatMap(geojson => geojson.features)` wrapped by
`turf.featureCollection`.  Absent (null) entries are modelled as `none`. -/
def mergeGeoJSONFeatures (geojsons : List (Option FeatureCollection)) : FeatureCollection :=
  { features := (geojsons.filterMap id).flatMap (fun geojson => geojson.features) }

/-- A linear ring is structurally valid when it has at least four positions
and is closed (first position equal to the last). -/
def validRing (r : List Coord) : Bool :=
  decide (4 ≤ r.length) && decide (r.head? = r.getLast?)

/-- The polygon parts of a geometry, when the geometry is one the union
operation accepts: a Polygon is a single part, a MultiPolygon contributes
its list of parts; Point and LineString inputs are not unionable. -/
def polyParts : Geometry → Option (List (List (List Coord)))
  | .polygon rings => some [rings]
  | .multiPolygon parts => some parts
  | _ => none

/-- A geometry is acceptable to the union operation when it is a Polygon or
MultiPolygon all of whose parts have at least one ring and only valid
rings. -/
def validPolyGeometry (g : Geometry) : Bool :=
  match polyParts g with
  | some parts => parts.all (fun rings => !rings.isEmpty && rings.all validRing)
  | none => false

/-- Modelled from the spec: `turf.union`, the union operation of the
external @turf/turf geometry kernel, whose source is not part of this
repository.  Per the spec, the union is the set-theoretic union of the
polygon areas, possibly producing multiple disjoint parts, and the union
step must fail with a GeometryError when an input geometry is invalid
(non-polygon input, too few ring points, unclosed ring).  The model
validates both operands and returns a MultiPolygon collecting the parts of
both; its covered point-set is exactly the union of the operands' covered
sets.  (The real kernel merges overlapping parts into a single Polygon;
that changes the representation of the covered set, not the set itself.)
The error value carries a message only: the kernel knows nothing about the
position of its operands in the caller's feature list. -/
def turf_union (a b : Feature) : Except CoreError Feature :=
  if validPolyGeometry a.geometry && validPolyGeometry b.geometry then
    .ok { geometry := .multiPolygon ((polyParts a.geometry).getD [] ++ (polyParts b.geometry).getD [])
          properties := a.properties }
  else
    .error (.geometry "Invalid geometry passed to union")

/-- The union loop of `getOuterBoundary` (src lines 45 to 47), with an
explicit fuel argument so that the recursion is structural: the loop body
unions `features[i]` into the accumulator and increments `i`; it stops when
`i` runs past the end of the list, and a thrown error aborts the loop and
propagates.  The fuel, initially the length of the list, dominates the
number of remaining iterations, so it never runs out first. -/
def unionLoopGo (feats : List Feature) : Nat → Feature → Nat → Except CoreError Feature
  | 0, acc, _ => .ok acc
  | fuel + 1, acc, i =>
    match feats[i]? with
    | none => .ok acc
    | some f =>
      match turf_union acc f with
      | .ok u => unionLoopGo feats fuel u (i + 1)
      | .error e => .error e

/-- The union loop of `getOuterBoundary` starting at index `i`. -/
def unionLoop (feats : List Feature) (acc : Feature) (i : Nat) : Except CoreError Feature :=
  unionLoopGo feats feats.length acc i

/-- The value `getOuterBoundary` returns: either the empty
FeatureCollection sentinel (no features) or a feature. -/
inductive BoundaryResult where
  | collection (c : FeatureCollection)
  | feature (f : Feature)
deriving DecidableEq

/-- `getOuterBoundary` (src lines 36 to 54): an empty feature collection
when there are no features, otherwise the left-to-right union of all
features starting from `features[0]`. -/
def getOuterBoundary (c : FeatureCollection) : Except CoreError BoundaryResult :=
  match c.features with
  | [] => .ok (.collection { features := [] })
  | f0 :: _ => (unionLoop c.features f0 1).map .feature

/-- The composition performed by the `/process-zipcodes` endpoint
(src lines 87 to 88) and named `mergeBoundary` by the spec: Feature Merger
followed by Polygon Unifier. -/
def mergeBoundary (geojsons : List (Option FeatureCollection)) : Except CoreError BoundaryResult :=
  getOuterBoundary (mergeGeoJSONFeatures geojsons)

/-- The features of the non-absent entries, concatenated in order.  This
definition follows the words of the spec for the Feature Merger: discard
absent entries and concatenate the `features` sequences of the remaining
entries, preserving relative order. -/
def specConcatFeatures : List (Option FeatureCollection) → List Feature
  | [] => []
  | none :: rest => specConcatFeatures rest
  | some c :: rest => c.features ++ specConcatFeatures rest

/-! ## Covered-set semantics

The spec's notion of the area covered by a geometry, used to state the
union properties.  A point is inside a polygon when a horizontal ray from
it crosses the polygon's rings an odd number of times; a multipolygon
covers what any of its parts covers.  All tests are exact over ℚ. -/

/-- Does the horizontal ray from `p` to the right cross the edge from `a`
to `b`?  The standard even-odd crossing test with the half-open vertical
range convention, exact over the rationals. -/
def rayCrossesEdge (p a b : Coord) : Bool :=
  if a.2 ≤ p.2 then
    decide (p.2 < b.2) && decide ((p.1 - a.1) * (b.2 - a.2) < (b.1 - a.1) * (p.2 - a.2))
  else
    decide (b.2 ≤ p.2) && decide ((b.1 - a.1) * (p.2 - a.2) < (p.1 - a.1) * (b.2 - a.2))

/-- The consecutive edges of a ring (or of any coordinate path). -/
def ringEdges (r : List Coord) : List (Coord × Coord) :=
  r.zip (r.drop 1)

/-- Even-odd membership of a point in the region bounded by a list of
rings (outer ring and holes together). -/
def inRings (rings : List (List Coord)) (p : Coord) : Bool :=
  ((rings.flatMap ringEdges).countP (fun e => rayCrossesEdge p e.1 e.2)) % 2 = 1

/-- The covered point-set of a geometry, as a Boolean membership test:
even-odd interior for a polygon, union of the parts for a multipolygon;
points and line strings cover no area. -/
def covers (g : Geometry) (p : Coord) : Bool :=
  match g with
  | .polygon rings => inRings rings p
  | .multiPolygon parts => parts.any (fun rings => inRings rings p)
  | _ => false

/-- What a `getOuterBoundary` result covers: the empty-collection sentinel
covers nothing. -/
def coversResult (r : BoundaryResult) (p : Coord) : Bool :=
  match r with
  | .collection _ => false
  | .feature f => covers f.geometry p

/-- Two features are disjoint when no point is covered by both. -/
def FeatDisjoint (a b : Feature) : Prop :=
  ∀ p : Coord, ¬(covers a.geometry p = true ∧ covers b.geometry p = true)

/-- Twice the signed area of a ring, by the shoelace formula. -/
def shoelace (r : List Coord) : ℚ :=
  (ringEdges r).foldl (fun s e => s + (e.1.1 * e.2.2 - e.2.1 * e.1.2)) 0

/-- The area enclosed by one polygon part: the outer ring's area minus the
holes' areas (absolute shoelace values halved). -/
def partArea (rings : List (List Coord)) : ℚ :=
  match rings with
  | [] => 0
  | outer :: holes => |shoelace outer| / 2 - (holes.map (fun h => |shoelace h| / 2)).sum

/-- The closed counterclockwise ring of the axis-aligned unit square whose
lower-left corner is `(x, y)`. -/
def squareRing (x y : ℚ) : List Coord :=
  [(x, y), (x + 1, y), (x + 1, y + 1), (x, y + 1), (x, y)]

/-- A polygon feature for the unit square at `(x, y)`. -/
def squareFeature (x y : ℚ) : Feature :=
  { geometry := .polygon [squareRing x y], properties := [] }

/-! ## Convex hull machinery -/

/-- Cross product of the vectors from `o` to `a` and from `o` to `b`:
positive when the turn from `a` to `b` around `o` is counterclockwise. -/
def cross (o a b : Coord) : ℚ :=
  (a.1 - o.1) * (b.2 - o.2) - (a.2 - o.2) * (b.1 - o.1)

/-- Strict lexicographic order on coordinates. -/
def lexLt (a b : Coord) : Prop :=
  a.1 < b.1 ∨ (a.1 = b.1 ∧ a.2 < b.2)

/-- Lexicographic order on coordinates. -/
def lexLe (a b : Coord) : Prop :=
  lexLt a b ∨ a = b

instance : DecidableRel lexLt := fun a b => by
  unfold lexLt; infer_instance

instance : DecidableRel lexLe := fun a b => by
  unfold lexLe; infer_instance

instance : IsTotal Coord lexLe where
  total a b := by
    rcases lt_trichotomy a.1 b.1 with h | h | h
    · exact Or.inl (Or.inl (Or.inl h))
    · rcases lt_trichotomy a.2 b.2 with h2 | h2 | h2
      · exact Or.inl (Or.inl (Or.inr ⟨h, h2⟩))
      · exact Or.inl (Or.inr (Prod.ext h h2))
      · exact Or.inr (Or.inl (Or.inr ⟨h.symm, h2⟩))
    · exact Or.inr (Or.inl (Or.inl h))

instance : IsTrans Coord lexLt where
  trans a b c hab hbc := by
    rcases hab with h | ⟨he, h2⟩ <;> rcases hbc with h' | ⟨he', h2'⟩
    · exact Or.inl (h.trans h')
    · exact Or.inl (he' ▸ h)
    · exact Or.inl (he ▸ h')
    · exact Or.inr ⟨he.trans he', h2.trans h2'⟩

instance : IsTrans Coord lexLe where
  trans a b c hab hbc := by
    rcases hab with hab | rfl
    · rcases hbc with hbc | rfl
      · exact Or.inl (Trans.trans hab hbc)
      · exact Or.inl hab
    · exact hbc

instance : IsAntisymm Coord lexLe where
  antisymm a b hab hba := by
    rcases hab with hab | rfl
    · rcases hba with hba | rfl
      · exfalso
        rcases hab with h | ⟨he, h2⟩ <;> rcases hba with h' | ⟨he', h2'⟩
        · exact absurd (h.trans h') (lt_irrefl _)
        · exact absurd (he' ▸ h) (lt_irrefl _)
        · exact absurd (he ▸ h') (lt_irrefl _)
        · exact absurd (h2.trans h2') (lt_irrefl _)
      · rfl
    · rfl

/-- One step of the monotone-chain hull construction: pop stack points
that no longer make a strict counterclockwise turn once `p` is appended,
then push `p`.  The stack holds the chain in reverse (most recent point
first). -/
def chainPush (p : Coord) : List Coord → List Coord
  | [] => [p]
  | b :: s =>
    match s with
    | [] => [p, b]
    | a :: _ => if cross a b p ≤ 0 then chainPush p s else p :: b :: s

/-- Feed a list of points into the chain, left to right. -/
def buildChain : List Coord → List Coord → List Coord
  | [], stack => stack
  | p :: ps, stack => buildChain ps (chainPush p stack)

/-- The sorted, deduplicated point list a hull is computed from.  The spec
requires duplicate points to be ignored, and a standard hull algorithm
starts from the points sorted lexicographically. -/
def hullPoints (pts : List Coord) : List Coord :=
  List.insertionSort lexLe pts.dedup

/-- The closed convex hull ring of a point list: lower and upper monotone
chains concatenated (each dropping its final point, so that the chain ends
are not repeated), closed by repeating the first vertex. -/
def hullRing (pts : List Coord) : List Coord :=
  let s := hullPoints pts
  let lower := (buildChain s []).reverse
  let upper := (buildChain s.reverse []).reverse
  match lower.dropLast ++ upper.dropLast with
  | [] => []
  | h :: t => h :: (t ++ [h])

/-- Modelled from the spec: `turf.convex`, the convex hull operation of the
external @turf/turf kernel, whose source is not part of this repository.
Per the spec it computes the convex hull of the point set with a standard
hull algorithm (modelled here by the monotone chain), ignoring duplicate
points, and returns a single closed Polygon feature whose outer ring is
the hull; it returns the null result when the hull degenerates (fewer than
three distinct points, or all points collinear), that is, whenever the
hull ring is not a genuine closed polygon of more than three positions. -/
def turf_convex (pts : List Coord) : Option Feature :=
  let ring := hullRing pts
  if 3 < ring.length then some { geometry := .polygon [ring], properties := [] }
  else none

/-- `createBoundaryFromPoints` (src lines 57 to 70): reject fewer than
three points with the validation error message thrown by the source, then
wrap the points as point features and return the convex hull of the
resulting feature collection (possibly null). -/
def createBoundaryFromPoints (points : List Coord) : Except CoreError (Option Feature) :=
  if points.length < 3 then
    .error (.validation "At least three points are required to create a boundary.")
  else
    .ok (turf_convex points)

/-- The chronological edges of a chain stack (most recent point first):
the pair `(a, b)` records that `a` was pushed directly before `b`. -/
def stackEdges : List Coord → List (Coord × Coord)
  | b :: a :: s => (a, b) :: stackEdges (a :: s)
  | _ => []

/-- Pointwise negation, used to transfer lower-chain facts to the upper
chain. -/
def pointNeg (p : Coord) : Coord := (-p.1, -p.2)

/-- The invariant of the monotone-chain stack `S` after processing the
point list `P` in strictly increasing lexicographic order: the stack is
nonempty, its most recent point is the last point processed, its oldest
point is the first point processed, its points come from `P`, its
chronological edges strictly increase lexicographically, and every
processed point lies on or to the left of every chronological edge. -/
structure ChainInv (P S : List Coord) : Prop where
  ne : S ≠ []
  top : S.head? = P.getLast?
  bot : S.getLast? = P.head?
  mem : ∀ x ∈ S, x ∈ P
  incr : ∀ e ∈ stackEdges S, lexLt e.1 e.2
  left : ∀ e ∈ stackEdges S, ∀ q ∈ P, 0 ≤ cross e.1 e.2 q

/-! ## The union loop is the left fold of the tail -/

theorem unionLoopGo_eq_foldlM (feats : List Feature) :
    ∀ (fuel i : Nat) (acc : Feature), feats.length ≤ fuel + i →
      unionLoopGo feats fuel acc i = (feats.drop i).foldlM turf_union acc := by
  intro fuel
  induction fuel with
  | zero =>
    intro i acc h
    rw [List.drop_eq_nil_of_le (by omega)]
    rfl
  | succ fuel ih =>
    intro i acc h
    simp only [unionLoopGo]
    cases hg : feats[i]? with
    | none =>
      have hlen : feats.length ≤ i := by
        by_contra hh
        rw [List.getElem?_eq_getElem (by omega)] at hg
        exact Option.noConfusion hg
      rw [List.drop_eq_nil_of_le hlen]
      rfl
    | some f =>
      have hlt : i < feats.length := by
        by_contra hh
        rw [List.getElem?_eq_none (by omega)] at hg
        exact Option.noConfusion hg
      have hfi : feats[i] = f := by
        rw [List.getElem?_eq_getElem hlt] at hg
        exact Option.some.injEq _ _ ▸ congrArg (Option.getD · f) hg
      rw [List.drop_eq_getElem_cons hlt, List.foldlM_cons, hfi]
      cases hu : turf_union acc f with
      | ok u =>
        have := ih (i + 1) u (by omega)
        simpa [hu] using this
      | error e =>
        simp only [hu]
        rfl

theorem unionLoop_eq_foldlM (feats : List Feature) (acc : Feature) (i : Nat) :
    unionLoop feats acc i = (feats.drop i).foldlM turf_union acc :=
  unionLoopGo_eq_foldlM feats feats.length i acc (by omega)

/-- C1: for a FeatureCollection with `M` features, `getOuterBoundary`
returns the empty FeatureCollection sentinel when `M = 0`, returns the
single feature (geometry unchanged) when `M = 1`, and for `M > 1` returns
the left fold that starts from `features[0]` and successively replaces the
accumulator with the union of the accumulator and `features[i]` for
`i = 1 .. M - 1`. -/
theorem getOuterBoundary_fold_spec (c : FeatureCollection) :
    (c.features = [] → getOuterBoundary c = .ok (.collection ⟨[]⟩)) ∧
    (∀ f, c.features = [f] → getOuterBoundary c = .ok (.feature f)) ∧
    (∀ f0 rest, c.features = f0 :: rest → rest ≠ [] →
      getOuterBoundary c = (rest.foldlM turf_union f0).map .feature) := by
  refine ⟨fun h => by simp [getOuterBoundary, h], ?_, ?_⟩
  · intro f h
    simp [getOuterBoundary, h, unionLoop_eq_foldlM]
    rfl
  · intro f0 rest h _
    simp only [getOuterBoundary, h, unionLoop_eq_foldlM, List.drop_succ_cons, List.drop_zero]

theorem getOuterBoundary_fold_spec_witness :
    getOuterBoundary ⟨[squareFeature 0 0, squareFeature 10 10]⟩ =
      (([squareFeature 10 10]).foldlM turf_union (squareFeature 0 0)).map BoundaryResult.feature :=
  (getOuterBoundary_fold_spec ⟨[squareFeature 0 0, squareFeature 10 10]⟩).2.2
    (squareFeature 0 0) [squareFeature 10 10] rfl (by simp)

/-- C3: `mergeBoundary` on the empty sequence and on a sequence of only
absent entries returns the empty FeatureCollection sentinel, and neither
raises an error. -/
theorem mergeBoundary_empty_and_all_null :
    mergeBoundary [] = .ok (.collection ⟨[]⟩) ∧
    mergeBoundary [none, none] = .ok (.collection ⟨[]⟩) :=
  ⟨rfl, rfl⟩

/-- C7: the Feature Merger returns one FeatureCollection whose features
are exactly the concatenation of the features of the non-absent entries,
in order, with absent entries discarded. -/
theorem mergeGeoJSONFeatures_concat (geojsons : List (Option FeatureCollection)) :
    (mergeGeoJSONFeatures geojsons).features = specConcatFeatures geojsons := by
  induction geojsons with
  | nil => rfl
  | cons g rest ih =>
    cases g with
    | none => simpa [mergeGeoJSONFeatures, specConcatFeatures, List.filterMap_cons] using ih
    | some c =>
      simpa [mergeGeoJSONFeatures, specConcatFeatures, List.filterMap_cons] using ih

/-- C4: fewer than three points are rejected with the validation error
stating that at least three points are required, independently of the
point values, before any hull computation. -/
theorem createBoundaryFromPoints_short_input (points : List Coord)
    (h : points.length < 3) :
    createBoundaryFromPoints points =
      .error (.validation "At least three points are required to create a boundary.") := by
  simp [createBoundaryFromPoints, h]

theorem createBoundaryFromPoints_short_input_witness :
    createBoundaryFromPoints [((0 : ℚ), (0 : ℚ)), ((1 : ℚ), (1 : ℚ))] =
      .error (.validation "At least three points are required to create a boundary.") :=
  createBoundaryFromPoints_short_input [((0 : ℚ), (0 : ℚ)), ((1 : ℚ), (1 : ℚ))] (by simp)

/-! ## Union failure propagation -/

theorem turf_union_invalid (a b : Feature)
    (h : validPolyGeometry a.geometry = false ∨ validPolyGeometry b.geometry = false) :
    turf_union a b = .error (.geometry "Invalid geometry passed to union") := by
  unfold turf_union
  rcases h with h | h <;> simp [h]

theorem turf_union_ok_eq (a b : Feature)
    (ha : validPolyGeometry a.geometry = true) (hb : validPolyGeometry b.geometry = true) :
    turf_union a b =
      .ok { geometry := .multiPolygon
              ((polyParts a.geometry).getD [] ++ (polyParts b.geometry).getD [])
            properties := a.properties } := by
  unfold turf_union
  simp [ha, hb]

theorem valid_polyParts (g : Geometry) (h : validPolyGeometry g = true) :
    ∃ parts, polyParts g = some parts ∧
      parts.all (fun rings => !rings.isEmpty && rings.all validRing) = true := by
  unfold validPolyGeometry at h
  cases hp : polyParts g with
  | none => rw [hp] at h; cases h
  | some parts => rw [hp] at h; exact ⟨parts, rfl, h⟩

theorem turf_union_ok_valid (a b u : Feature) (hu : turf_union a b = .ok u) :
    validPolyGeometry a.geometry = true ∧ validPolyGeometry b.geometry = true ∧
      validPolyGeometry u.geometry = true := by
  cases ha : validPolyGeometry a.geometry with
  | false =>
    rw [turf_union_invalid a b (Or.inl ha)] at hu
    exact Except.noConfusion hu
  | true =>
    cases hb : validPolyGeometry b.geometry with
    | false =>
      rw [turf_union_invalid a b (Or.inr hb)] at hu
      exact Except.noConfusion hu
    | true =>
      refine ⟨rfl, rfl, ?_⟩
      rw [turf_union_ok_eq a b ha hb] at hu
      obtain ⟨pa, hpa, hva⟩ := valid_polyParts a.geometry ha
      obtain ⟨pb, hpb, hvb⟩ := valid_polyParts b.geometry hb
      cases hu
      rw [hpa, hpb]
      simp only [Option.getD_some, validPolyGeometry, polyParts]
      rw [List.all_append, Bool.and_eq_true]
      exact ⟨hva, hvb⟩

theorem foldlM_union_error (rest : List Feature) :
    ∀ acc : Feature,
      ((validPolyGeometry acc.geometry = false ∧ rest ≠ []) ∨
        (∃ f ∈ rest, validPolyGeometry f.geometry = false)) →
      rest.foldlM turf_union acc = .error (.geometry "Invalid geometry passed to union") := by
  induction rest with
  | nil =>
    rintro acc (⟨_, hne⟩ | ⟨f, hf, _⟩)
    · exact absurd rfl hne
    · cases hf
  | cons x xs ih =>
    intro acc h
    rw [List.foldlM_cons]
    by_cases hax : validPolyGeometry acc.geometry = false ∨ validPolyGeometry x.geometry = false
    · rw [turf_union_invalid acc x hax]
      rfl
    · push_neg at hax
      obtain ⟨ha, hx⟩ := hax
      rw [Bool.ne_false_iff] at ha hx
      rw [turf_union_ok_eq acc x ha hx]
      show xs.foldlM turf_union _ = _
      apply ih
      rcases h with ⟨hacc, _⟩ | ⟨f, hf, hfbad⟩
      · rw [ha] at hacc; cases hacc
      · rcases List.mem_cons.mp hf with rfl | hfxs
        · rw [hx] at hfbad; cases hfbad
        · exact Or.inr ⟨f, hfxs, hfbad⟩

/-- C5 counterexample: the claim fails on the code.  A FeatureCollection
whose only feature has invalid geometry (a three-position, hence too
short, ring) makes `getOuterBoundary` return that feature unchanged — no
GeometryError is raised, because with one feature the union loop body
never runs.  Moreover, when a union step does fail, the error value is the
same whatever the position of the invalid feature (index 0 here, index 2
there), so the error cannot identify which union step failed. -/
theorem getOuterBoundary_invalid_counterexample :
    validPolyGeometry (Geometry.polygon [[(0, 0), (1, 0), (0, 0)]]) = false ∧
    getOuterBoundary ⟨[⟨.polygon [[(0, 0), (1, 0), (0, 0)]], []⟩]⟩ =
      .ok (.feature ⟨.polygon [[(0, 0), (1, 0), (0, 0)]], []⟩) ∧
    getOuterBoundary ⟨[⟨.polygon [[(0, 0), (1, 0), (0, 0)]], []⟩, squareFeature 0 0]⟩ =
      .error (.geometry "Invalid geometry passed to union") ∧
    getOuterBoundary ⟨[squareFeature 0 0, squareFeature 5 5,
        ⟨.polygon [[(0, 0), (1, 0), (0, 0)]], []⟩]⟩ =
      .error (.geometry "Invalid geometry passed to union") :=
  ⟨rfl, rfl, rfl, rfl⟩

/-- C5 (amended): when at least two features are present — so that every
feature takes part in some union step — a feature with invalid geometry
makes `getOuterBoundary` fail with a GeometryError and no partial result
is returned; the error is a fixed value carrying a message only, so it
does not identify which union step (which input index) failed.  With a
single invalid feature, the feature is returned unchanged and unvalidated
(see the counterexample). -/
theorem getOuterBoundary_invalid_geometry (c : FeatureCollection)
    (hM : 2 ≤ c.features.length)
    (hbad : ∃ f ∈ c.features, validPolyGeometry f.geometry = false) :
    getOuterBoundary c = .error (.geometry "Invalid geometry passed to union") := by
  obtain ⟨f0, rest, h⟩ : ∃ f0 rest, c.features = f0 :: rest := by
    cases hc : c.features with
    | nil => rw [hc] at hM; simp at hM
    | cons f0 rest => exact ⟨f0, rest, rfl⟩
  have hrest : rest ≠ [] := by
    intro hh
    rw [h, hh] at hM
    simp at hM
  simp only [getOuterBoundary, h, unionLoop_eq_foldlM, List.drop_succ_cons, List.drop_zero]
  rw [foldlM_union_error rest f0 ?_]
  · rfl
  · rw [h] at hbad
    obtain ⟨f, hf, hfbad⟩ := hbad
    rcases List.mem_cons.mp hf with rfl | hfrest
    · exact Or.inl ⟨hfbad, hrest⟩
    · exact Or.inr ⟨f, hfrest, hfbad⟩

theorem getOuterBoundary_invalid_geometry_witness :
    getOuterBoundary ⟨[⟨.polygon [[(0, 0), (1, 0), (0, 0)]], []⟩, squareFeature 3 3]⟩ =
      .error (.geometry "Invalid geometry passed to union") :=
  getOuterBoundary_invalid_geometry
    ⟨[⟨.polygon [[(0, 0), (1, 0), (0, 0)]], []⟩, squareFeature 3 3]⟩
    (by simp)
    ⟨⟨.polygon [[(0, 0), (1, 0), (0, 0)]], []⟩, by simp, rfl⟩

/-! ## Covered sets of unions -/

theorem covers_of_polyParts (g : Geometry) (parts : List (List (List Coord)))
    (hp : polyParts g = some parts) (p : Coord) :
    covers g p = parts.any (fun rings => inRings rings p) := by
  cases g with
  | polygon rings =>
    simp only [polyParts, Option.some.injEq] at hp
    subst hp
    simp [covers]
  | multiPolygon ps =>
    simp only [polyParts, Option.some.injEq] at hp
    subst hp
    simp [covers]
  | point c => simp [polyParts] at hp
  | lineString cs => simp [polyParts] at hp

theorem covers_turf_union (a b u : Feature) (hu : turf_union a b = .ok u) (p : Coord) :
    covers u.geometry p = (covers a.geometry p || covers b.geometry p) := by
  obtain ⟨ha, hb, _⟩ := turf_union_ok_valid a b u hu
  rw [turf_union_ok_eq a b ha hb] at hu
  obtain ⟨pa, hpa, _⟩ := valid_polyParts a.geometry ha
  obtain ⟨pb, hpb, _⟩ := valid_polyParts b.geometry hb
  cases hu
  rw [hpa, hpb]
  simp only [Option.getD_some]
  rw [covers_of_polyParts (Geometry.multiPolygon (pa ++ pb)) (pa ++ pb) rfl p,
    List.any_append, ← covers_of_polyParts a.geometry pa hpa p,
    ← covers_of_polyParts b.geometry pb hpb p]

theorem rayCrossesEdge_y_range (p a b : Coord) (h : rayCrossesEdge p a b = true) :
    (a.2 ≤ p.2 ∧ p.2 < b.2) ∨ (b.2 ≤ p.2 ∧ p.2 < a.2) := by
  unfold rayCrossesEdge at h
  by_cases hc : a.2 ≤ p.2
  · rw [if_pos hc] at h
    simp only [Bool.and_eq_true, decide_eq_true_eq] at h
    exact Or.inl ⟨hc, h.1⟩
  · rw [if_neg hc] at h
    simp only [Bool.and_eq_true, decide_eq_true_eq] at h
    exact Or.inr ⟨h.1, lt_of_not_le hc⟩

theorem inRings_exists_crossing (rings : List (List Coord)) (p : Coord)
    (h : inRings rings p = true) :
    ∃ e ∈ rings.flatMap ringEdges, rayCrossesEdge p e.1 e.2 = true := by
  simp only [inRings, decide_eq_true_eq] at h
  have hpos : 0 < (rings.flatMap ringEdges).countP (fun e => rayCrossesEdge p e.1 e.2) := by
    omega
  exact List.countP_pos_iff.mp hpos

theorem covers_square_y_range (x y : ℚ) (p : Coord)
    (h : covers (squareFeature x y).geometry p = true) :
    y ≤ p.2 ∧ p.2 < y + 1 := by
  have h' : inRings [squareRing x y] p = true := h
  obtain ⟨e, he, hcross⟩ := inRings_exists_crossing _ _ h'
  have hy := rayCrossesEdge_y_range p e.1 e.2 hcross
  simp only [squareRing, ringEdges, List.flatMap_cons, List.flatMap_nil, List.append_nil,
    List.drop_succ_cons, List.drop_zero, List.zip_cons_cons, List.zip_nil_right,
    List.mem_cons, List.not_mem_nil, or_false] at he
  rcases he with he | he | he | he <;> subst he <;> dsimp only at hy <;>
    rcases hy with ⟨h1, h2⟩ | ⟨h1, h2⟩ <;> constructor <;> linarith

theorem squareFeatures_disjoint :
    FeatDisjoint (squareFeature 0 0) (squareFeature 10 10) := by
  rintro p ⟨h1, h2⟩
  have a1 := covers_square_y_range 0 0 p h1
  have a2 := covers_square_y_range 10 10 p h2
  linarith [a1.2, a2.1]

/-- C2: the union of the two disjoint unit squares at (0,0) and (10,10)
is a MultiPolygon with exactly two parts, each of area 1; in general the
union of two valid disjoint polygon features is a MultiPolygon. -/
theorem union_disjoint_multipolygon :
    (turf_union (squareFeature 0 0) (squareFeature 10 10) =
        .ok ⟨.multiPolygon [[squareRing 0 0], [squareRing 10 10]], []⟩ ∧
      partArea [squareRing 0 0] = 1 ∧ partArea [squareRing 10 10] = 1) ∧
    (∀ a b : Feature, validPolyGeometry a.geometry = true →
      validPolyGeometry b.geometry = true → FeatDisjoint a b →
      ∃ parts, turf_union a b = .ok ⟨.multiPolygon parts, a.properties⟩) := by
  constructor
  · refine ⟨rfl, ?_, ?_⟩ <;> norm_num [partArea, shoelace, squareRing, ringEdges]
  · intro a b ha hb _
    exact ⟨_, turf_union_ok_eq a b ha hb⟩

theorem union_disjoint_multipolygon_witness :
    ∃ parts, turf_union (squareFeature 0 0) (squareFeature 10 10) =
      .ok ⟨.multiPolygon parts, (squareFeature 0 0).properties⟩ :=
  union_disjoint_multipolygon.2 (squareFeature 0 0) (squareFeature 10 10) rfl rfl
    squareFeatures_disjoint

theorem foldlM_union_covers (rest : List Feature) :
    ∀ acc u : Feature, validPolyGeometry acc.geometry = true →
      (∀ f ∈ rest, validPolyGeometry f.geometry = true) →
      rest.foldlM turf_union acc = .ok u →
      validPolyGeometry u.geometry = true ∧
        ∀ p, covers u.geometry p =
          (covers acc.geometry p || rest.any (fun f => covers f.geometry p)) := by
  induction rest with
  | nil =>
    intro acc u hacc _ h
    have h' : (Except.ok acc : Except CoreError Feature) = .ok u := h
    cases h'
    simp [hacc]
  | cons x xs ih =>
    intro acc u hacc hall h
    rw [List.foldlM_cons] at h
    cases hux : turf_union acc x with
    | error e =>
      rw [hux] at h
      exact Except.noConfusion h
    | ok v =>
      rw [hux] at h
      obtain ⟨_, _, hvval⟩ := turf_union_ok_valid acc x v hux
      have h' : xs.foldlM turf_union v = .ok u := h
      obtain ⟨huval, hcov⟩ :=
        ih v u hvval (fun f hf => hall f (List.mem_cons_of_mem x hf)) h'
      refine ⟨huval, fun p => ?_⟩
      rw [hcov p, covers_turf_union acc x v hux p, List.any_cons, Bool.or_assoc]

theorem getOuterBoundary_covers (c : FeatureCollection) (r : BoundaryResult)
    (hall : ∀ f ∈ c.features, validPolyGeometry f.geometry = true)
    (h : getOuterBoundary c = .ok r) (p : Coord) :
    coversResult r p = c.features.any (fun f => covers f.geometry p) := by
  cases hc : c.features with
  | nil =>
    simp only [getOuterBoundary, hc] at h
    cases h
    simp [coversResult]
  | cons f0 rest =>
    simp only [getOuterBoundary, hc, unionLoop_eq_foldlM, List.drop_succ_cons,
      List.drop_zero] at h
    cases hfold : rest.foldlM turf_union f0 with
    | error e =>
      rw [hfold] at h
      exact Except.noConfusion h
    | ok u =>
      rw [hfold] at h
      cases h
      have hvall : ∀ f ∈ rest, validPolyGeometry f.geometry = true := by
        intro f hf
        exact hall f (hc ▸ List.mem_cons_of_mem f0 hf)
      have hv0 : validPolyGeometry f0.geometry = true :=
        hall f0 (hc ▸ List.mem_cons_self f0 rest)
      obtain ⟨_, hcov⟩ := foldlM_union_covers rest f0 u hv0 hvall hfold
      simpa [coversResult, List.any_cons] using hcov p

theorem perm_any_eq (l₁ l₂ : List Feature) (hp : l₁.Perm l₂) (f : Feature → Bool) :
    l₁.any f = l₂.any f := by
  induction hp with
  | nil => rfl
  | cons x _ ih => simp [List.any_cons, ih]
  | swap x y l => simp [List.any_cons, ← Bool.or_assoc, Bool.or_comm]
  | trans _ _ ih₁ ih₂ => rw [ih₁, ih₂]

/-- C6: the union has the same covered point-set whichever way round its
two operands are given (which makes the covered areas equal), and
consequently the covered set of the Polygon Unifier's result does not
depend on the order in which the features are folded: permuting the
feature list leaves the covered set of the result unchanged. -/
theorem union_covered_set_commutative :
    (∀ a b : Feature, validPolyGeometry a.geometry = true →
      validPolyGeometry b.geometry = true →
      ∃ u v, turf_union a b = .ok u ∧ turf_union b a = .ok v ∧
        ∀ p, covers u.geometry p = covers v.geometry p) ∧
    (∀ (c c' : FeatureCollection) (r r' : BoundaryResult),
      c.features.Perm c'.features →
      (∀ f ∈ c.features, validPolyGeometry f.geometry = true) →
      getOuterBoundary c = .ok r → getOuterBoundary c' = .ok r' →
      ∀ p, coversResult r p = coversResult r' p) := by
  constructor
  · intro a b ha hb
    refine ⟨_, _, turf_union_ok_eq a b ha hb, turf_union_ok_eq b a hb ha, fun p => ?_⟩
    rw [covers_turf_union a b _ (turf_union_ok_eq a b ha hb) p,
      covers_turf_union b a _ (turf_union_ok_eq b a hb ha) p, Bool.or_comm]
  · intro c c' r r' hperm hall h h' p
    rw [getOuterBoundary_covers c r hall h p,
      getOuterBoundary_covers c' r' (fun f hf => hall f (hperm.mem_iff.mpr hf)) h' p]
    exact perm_any_eq c.features c'.features hperm _

theorem union_covered_set_commutative_witness :
    (∃ u v, turf_union (squareFeature 0 0) (squareFeature 10 10) = .ok u ∧
      turf_union (squareFeature 10 10) (squareFeature 0 0) = .ok v ∧
      ∀ p, covers u.geometry p = covers v.geometry p) ∧
    (∀ p, coversResult
        (.feature ⟨.multiPolygon [[squareRing 0 0], [squareRing 10 10]], []⟩) p =
      coversResult
        (.feature ⟨.multiPolygon [[squareRing 10 10], [squareRing 0 0]], []⟩) p) :=
  ⟨union_covered_set_commutative.1 (squareFeature 0 0) (squareFeature 10 10) rfl rfl,
   union_covered_set_commutative.2
     ⟨[squareFeature 0 0, squareFeature 10 10]⟩
     ⟨[squareFeature 10 10, squareFeature 0 0]⟩
     (.feature ⟨.multiPolygon [[squareRing 0 0], [squareRing 10 10]], []⟩)
     (.feature ⟨.multiPolygon [[squareRing 10 10], [squareRing 0 0]], []⟩)
     (List.Perm.swap (squareFeature 10 10) (squareFeature 0 0) [])
     (by
       intro f hf
       simp only [List.mem_cons, List.not_mem_nil, or_false] at hf
       rcases hf with rfl | rfl <;> rfl)
     rfl rfl⟩

/-! ## Hull edge cases -/

/-- C10: for an input of at least three points no error is raised after
the length check: `createBoundaryFromPoints` returns exactly what the hull
computation produces, and on a degenerate point set (for example three
collinear points) that is the hull's null result rather than an error. -/
theorem createBoundaryFromPoints_no_error (pts : List Coord) (h : 3 ≤ pts.length) :
    createBoundaryFromPoints pts = .ok (turf_convex pts) ∧
    createBoundaryFromPoints [((0 : ℚ), (0 : ℚ)), ((1 : ℚ), (0 : ℚ)), ((2 : ℚ), (0 : ℚ))] =
      .ok none := by
  constructor
  · rw [createBoundaryFromPoints, if_neg (by omega)]
  · rw [createBoundaryFromPoints, if_neg (by norm_num)]
    norm_num [turf_convex, hullRing, hullPoints, buildChain, chainPush, cross, lexLe, lexLt,
      List.insertionSort, List.orderedInsert, List.dedup, List.pwFilter, Prod.ext_iff]

theorem createBoundaryFromPoints_no_error_witness :
    createBoundaryFromPoints [((0 : ℚ), (0 : ℚ)), ((1 : ℚ), (0 : ℚ)), ((0 : ℚ), (1 : ℚ))] =
      .ok (turf_convex [((0 : ℚ), (0 : ℚ)), ((1 : ℚ), (0 : ℚ)), ((0 : ℚ), (1 : ℚ))]) ∧
    createBoundaryFromPoints [((0 : ℚ), (0 : ℚ)), ((1 : ℚ), (0 : ℚ)), ((2 : ℚ), (0 : ℚ))] =
      .ok none :=
  createBoundaryFromPoints_no_error
    [((0 : ℚ), (0 : ℚ)), ((1 : ℚ), (0 : ℚ)), ((0 : ℚ), (1 : ℚ))] (by simp)

/-- C9 counterexample: the claim fails on the code.  The sequence
[(0,0), (0,0), (1,0)] has three points including a duplicate;
`createBoundaryFromPoints` returns the null hull on it, but on the
sequence with the duplicate removed (two points) it throws the
ValidationError of the length check, so the two results differ. -/
theorem hull_dedup_counterexample :
    ([((0 : ℚ), (0 : ℚ)), ((0 : ℚ), (0 : ℚ)), ((1 : ℚ), (0 : ℚ))] : List Coord).dedup =
      [((0 : ℚ), (0 : ℚ)), ((1 : ℚ), (0 : ℚ))] ∧
    createBoundaryFromPoints [((0 : ℚ), (0 : ℚ)), ((0 : ℚ), (0 : ℚ)), ((1 : ℚ), (0 : ℚ))] =
      .ok none ∧
    createBoundaryFromPoints [((0 : ℚ), (0 : ℚ)), ((1 : ℚ), (0 : ℚ))] =
      .error (.validation "At least three points are required to create a boundary.") :=
  ⟨by decide, rfl, rfl⟩

/-- C9 (amended): whenever the deduplicated sequence still has at least
three points, `createBoundaryFromPoints` produces exactly the same result
on the original sequence as on the deduplicated one: duplicate points are
ignored and do not affect the hull.  (When removing duplicates drops the
count below three, the deduplicated input is instead rejected by the
length check: see the counterexample.) -/
theorem hull_ignores_duplicates (pts : List Coord) (h : 3 ≤ pts.dedup.length) :
    createBoundaryFromPoints pts = createBoundaryFromPoints pts.dedup := by
  have hlen : 3 ≤ pts.length :=
    le_trans h (List.Sublist.length_le (List.dedup_sublist pts))
  have hpts : hullPoints pts = hullPoints pts.dedup := by
    unfold hullPoints
    rw [List.dedup_idem]
  rw [createBoundaryFromPoints, createBoundaryFromPoints,
    if_neg (by omega), if_neg (by omega)]
  simp only [turf_convex, hullRing, hpts]

/-! ## Lexicographic order facts -/

theorem lex_total (a b : Coord) : lexLe a b ∨ lexLt b a := by
  rcases lt_trichotomy a.1 b.1 with h | h | h
  · exact Or.inl (Or.inl (Or.inl h))
  · rcases lt_trichotomy a.2 b.2 with h2 | h2 | h2
    · exact Or.inl (Or.inl (Or.inr ⟨h, h2⟩))
    · exact Or.inl (Or.inr (Prod.ext h h2))
    · exact Or.inr (Or.inr ⟨h.symm, h2⟩)
  · exact Or.inr (Or.inl h)

theorem lexLt_fst_le (a b : Coord) (h : lexLt a b) : a.1 ≤ b.1 := by
  rcases h with h | ⟨h, _⟩ <;> linarith

theorem lexLe_fst_le (a b : Coord) (h : lexLe a b) : a.1 ≤ b.1 := by
  rcases h with h | rfl
  · exact lexLt_fst_le a b h
  · exact le_refl _

theorem lexLe_antisymm (a b : Coord) (h1 : lexLe a b) (h2 : lexLe b a) : a = b :=
  IsAntisymm.antisymm a b h1 h2

theorem lexLt_trans (a b c : Coord) (h1 : lexLt a b) (h2 : lexLt b c) : lexLt a c :=
  Trans.trans h1 h2

/-! ## Geometric facts about the cross product -/

theorem cross_self (o a : Coord) : cross o a a = 0 := by
  unfold cross
  ring

theorem cross_right_self (o a : Coord) : cross o a o = 0 := by
  unfold cross
  ring

/-- The point `q` stays on the left when the chain is extended from `t` to
`p` by a strict left turn at `t`: `q` is on the left of the supporting
edge into `t`, not lexicographically beyond `t`, and `p` makes a strict
left turn. -/
theorem cross_step_push (t' t p q : Coord)
    (hq : 0 ≤ cross t' t q) (hp : 0 < cross t' t p)
    (ht : lexLt t' t) (hqt : lexLe q t) (htp : lexLt t p) :
    0 ≤ cross t p q := by
  have hwx : 0 ≤ p.1 - t.1 := by
    have := lexLt_fst_le t p htp
    linarith
  have hrx : q.1 - t.1 ≤ 0 := by
    have := lexLe_fst_le q t hqt
    linarith
  have hux : 0 ≤ t.1 - t'.1 := by
    have := lexLt_fst_le t' t ht
    linarith
  rcases eq_or_lt_of_le hux with hux0 | hux0
  · exfalso
    have hx : t'.1 = t.1 := by linarith
    have huy : 0 < t.2 - t'.2 := by
      rcases ht with h | ⟨_, h2⟩
      · exact absurd hx (ne_of_lt h)
      · linarith
    have hA : (t.1 - t'.1) * (p.2 - t'.2) = 0 := by
      have h0 : t.1 - t'.1 = 0 := by linarith
      rw [h0, zero_mul]
    have hB : 0 ≤ (t.2 - t'.2) * (p.1 - t'.1) := mul_nonneg huy.le (by linarith)
    unfold cross at hp
    linarith
  · have key : (t.1 - t'.1) * cross t p q =
        (p.1 - t.1) * cross t' t q + (t.1 - q.1) * cross t' t p := by
      unfold cross
      ring
    have h1 : 0 ≤ (p.1 - t.1) * cross t' t q := mul_nonneg hwx hq
    have h2 : 0 ≤ (t.1 - q.1) * cross t' t p := mul_nonneg (by linarith) hp.le
    nlinarith

/-- The point `q` stays on the left when the popped point `b` is bypassed:
`q` is on the left of the popped edge from `t` to `b`, `p` is on its right
or on it, and both `q` and `p` lie lexicographically at or beyond `t`. -/
theorem cross_step_pop (t b p q : Coord)
    (hq : 0 ≤ cross t b q) (hp : cross t b p ≤ 0)
    (ht : lexLt t b) (htq : lexLe t q) (htpx : t.1 ≤ p.1) :
    0 ≤ cross t p q := by
  have hrx : 0 ≤ q.1 - t.1 := by
    have := lexLe_fst_le t q htq
    linarith
  have hwx : 0 ≤ p.1 - t.1 := by linarith
  have hux : 0 ≤ b.1 - t.1 := by
    have := lexLt_fst_le t b ht
    linarith
  rcases eq_or_lt_of_le hux with hux0 | hux0
  · have hx : t.1 = b.1 := by linarith
    have huy : 0 < b.2 - t.2 := by
      rcases ht with h | ⟨_, h2⟩
      · exact absurd hx (ne_of_lt h)
      · linarith
    have hA : (b.1 - t.1) * (q.2 - t.2) = 0 := by
      have h0 : b.1 - t.1 = 0 := by linarith
      rw [h0, zero_mul]
    have hq' : (b.2 - t.2) * (q.1 - t.1) ≤ 0 := by
      unfold cross at hq
      linarith
    have hrx0 : q.1 - t.1 = 0 := by
      by_contra hne
      have hpos : 0 < q.1 - t.1 := lt_of_le_of_ne hrx (Ne.symm hne)
      nlinarith [mul_pos huy hpos]
    have hry : 0 ≤ q.2 - t.2 := by
      rcases htq with hlt | rfl
      · rcases hlt with h | ⟨_, h2⟩
        · exfalso
          linarith
        · linarith
      · linarith
    have hzero : (p.2 - t.2) * (q.1 - t.1) = 0 := by
      rw [hrx0, mul_zero]
    unfold cross
    have := mul_nonneg hwx hry
    linarith
  · have key : (b.1 - t.1) * cross t p q =
        (p.1 - t.1) * cross t b q + (q.1 - t.1) * (-(cross t b p)) := by
      unfold cross
      ring
    have h1 : 0 ≤ (p.1 - t.1) * cross t b q := mul_nonneg hwx hq
    have h2 : 0 ≤ (q.1 - t.1) * (-(cross t b p)) := mul_nonneg hrx (by linarith)
    nlinarith

/-- Angular transitivity along the chain: if the chain turns left at `y`
towards `z` and the new point `p` is on the left of the edge from `y` to
`z`, then `p` is also on the left of the earlier edge from `x` to `y`. -/
theorem cross_step_descend (x y z p : Coord)
    (hturn : 0 ≤ cross x y z) (hp : 0 ≤ cross y z p)
    (hxy : lexLt x y) (hyz : lexLt y z) (hzp : lexLt z p) :
    0 ≤ cross x y p := by
  have hux : 0 ≤ y.1 - x.1 := by
    have := lexLt_fst_le x y hxy
    linarith
  have hvx : 0 ≤ z.1 - y.1 := by
    have := lexLt_fst_le y z hyz
    linarith
  have hsx : 0 ≤ p.1 - y.1 := by
    have := lexLt_fst_le z p hzp
    linarith
  rcases eq_or_lt_of_le hvx with hvx0 | hvx0
  · have hx : y.1 = z.1 := by linarith
    have hvy : 0 < z.2 - y.2 := by
      rcases hyz with h | ⟨_, h2⟩
      · exact absurd hx (ne_of_lt h)
      · linarith
    have hA : (z.1 - y.1) * (p.2 - y.2) = 0 := by
      have h0 : z.1 - y.1 = 0 := by linarith
      rw [h0, zero_mul]
    have hp' : (z.2 - y.2) * (p.1 - y.1) ≤ 0 := by
      unfold cross at hp
      linarith
    have hsx0 : p.1 - y.1 = 0 := by
      by_contra hne
      have hpos : 0 < p.1 - y.1 := lt_of_le_of_ne hsx (Ne.symm hne)
      nlinarith [mul_pos hvy hpos]
    have hsy : 0 < p.2 - y.2 := by
      rcases hzp with h | ⟨_, h2⟩
      · exfalso
        linarith
      · linarith
    have hgoal : cross x y p = (y.1 - x.1) * (p.2 - y.2) := by
      have hpy : p.1 = y.1 := by linarith
      unfold cross
      rw [hpy]
      ring
    rw [hgoal]
    exact mul_nonneg hux hsy.le
  · have key : (z.1 - y.1) * cross x y p =
        (p.1 - y.1) * cross x y z + (y.1 - x.1) * cross y z p := by
      unfold cross
      ring
    have h1 : 0 ≤ (p.1 - y.1) * cross x y z := mul_nonneg hsx hturn
    have h2 : 0 ≤ (y.1 - x.1) * cross y z p := mul_nonneg hux hp
    nlinarith

theorem hull_ignores_duplicates_witness :
    createBoundaryFromPoints
        [((0 : ℚ), (0 : ℚ)), ((0 : ℚ), (0 : ℚ)), ((1 : ℚ), (0 : ℚ)), ((0 : ℚ), (1 : ℚ))] =
      createBoundaryFromPoints
        (([((0 : ℚ), (0 : ℚ)), ((0 : ℚ), (0 : ℚ)), ((1 : ℚ), (0 : ℚ)),
           ((0 : ℚ), (1 : ℚ))] : List Coord).dedup) :=
  hull_ignores_duplicates
    [((0 : ℚ), (0 : ℚ)), ((0 : ℚ), (0 : ℚ)), ((1 : ℚ), (0 : ℚ)), ((0 : ℚ), (1 : ℚ))]
    (by decide)

/-! ## Structure of the chain stack -/

theorem chainPush_nil (p : Coord) : chainPush p [] = [p] := rfl

theorem chainPush_singleton (p b : Coord) : chainPush p [b] = [p, b] := rfl

theorem chainPush_cons_cons (p b a : Coord) (s : List Coord) :
    chainPush p (b :: a :: s) =
      if cross a b p ≤ 0 then chainPush p (a :: s) else p :: b :: a :: s := rfl

theorem stackEdges_nil : stackEdges [] = [] := rfl

theorem stackEdges_singleton (x : Coord) : stackEdges [x] = [] := rfl

theorem stackEdges_cons_cons (b a : Coord) (s : List Coord) :
    stackEdges (b :: a :: s) = (a, b) :: stackEdges (a :: s) := rfl

theorem chainPush_cons (p : Coord) (S : List Coord) :
    ∃ S', chainPush p S = p :: S' := by
  induction S with
  | nil => exact ⟨[], rfl⟩
  | cons b s ih =>
    cases s with
    | nil => exact ⟨[b], rfl⟩
    | cons a s' =>
      rw [chainPush_cons_cons]
      by_cases h : cross a b p ≤ 0
      · rw [if_pos h]
        exact ih
      · rw [if_neg h]
        exact ⟨b :: a :: s', rfl⟩

theorem chainPush_getLast? (p : Coord) (S : List Coord) (h : S ≠ []) :
    (chainPush p S).getLast? = S.getLast? := by
  induction S with
  | nil => cases h rfl
  | cons b s ih =>
    cases s with
    | nil => rfl
    | cons a s' =>
      rw [chainPush_cons_cons]
      by_cases hc : cross a b p ≤ 0
      · rw [if_pos hc, ih (List.cons_ne_nil a s')]
        exact (List.getLast?_cons_cons).symm
      · rw [if_neg hc]
        rfl

theorem chainPush_mem (p : Coord) (S : List Coord) :
    ∀ x ∈ chainPush p S, x = p ∨ x ∈ S := by
  induction S with
  | nil =>
    intro x hx
    rw [chainPush_nil] at hx
    exact Or.inl (List.mem_singleton.mp hx)
  | cons b s ih =>
    cases s with
    | nil =>
      intro x hx
      rw [chainPush_singleton] at hx
      rcases List.mem_cons.mp hx with rfl | hx'
      · exact Or.inl rfl
      · exact Or.inr hx'
    | cons a s' =>
      rw [chainPush_cons_cons]
      by_cases hc : cross a b p ≤ 0
      · rw [if_pos hc]
        intro x hx
        rcases ih x hx with h | h
        · exact Or.inl h
        · exact Or.inr (List.mem_cons_of_mem b h)
      · rw [if_neg hc]
        intro x hx
        rcases List.mem_cons.mp hx with rfl | hx'
        · exact Or.inl rfl
        · exact Or.inr hx'

/-- If the new point is on the left of the top edge of the chain, it is on
the left of every edge of the chain: the chain only ever turns left, so
the edges rotate monotonically. -/
theorem stack_left_descend (p : Coord) (P : List Coord)
    (hmax : ∀ q ∈ P, lexLt q p) :
    ∀ (s : List Coord) (a t : Coord),
      (∀ x ∈ t :: a :: s, x ∈ P) →
      (∀ e ∈ stackEdges (t :: a :: s), lexLt e.1 e.2) →
      (∀ e ∈ stackEdges (t :: a :: s), ∀ q ∈ P, 0 ≤ cross e.1 e.2 q) →
      0 ≤ cross a t p →
      ∀ e ∈ stackEdges (t :: a :: s), 0 ≤ cross e.1 e.2 p := by
  intro s
  induction s with
  | nil =>
    intro a t _ _ _ htop e he
    rw [stackEdges_cons_cons, stackEdges_singleton] at he
    rcases List.mem_singleton.mp he with rfl
    exact htop
  | cons c s' ih =>
    intro a t hmem hincr hleft htop e he
    rw [stackEdges_cons_cons] at he
    rcases List.mem_cons.mp he with rfl | he'
    · exact htop
    · have hnext : 0 ≤ cross c a p := by
        refine cross_step_descend c a t p ?_ htop ?_ ?_ ?_
        · exact hleft (c, a)
            (by rw [stackEdges_cons_cons, stackEdges_cons_cons]
                exact List.mem_cons_of_mem _ (List.mem_cons_self _ _))
            t (hmem t (List.mem_cons_self _ _))
        · exact hincr (c, a)
            (by rw [stackEdges_cons_cons, stackEdges_cons_cons]
                exact List.mem_cons_of_mem _ (List.mem_cons_self _ _))
        · exact hincr (a, t)
            (by rw [stackEdges_cons_cons]; exact List.mem_cons_self _ _)
        · exact hmax t (hmem t (List.mem_cons_self _ _))
      refine ih c a ?_ ?_ ?_ hnext e he'
      · intro x hx
        exact hmem x (List.mem_cons_of_mem t hx)
      · intro e' he''
        exact hincr e' (by rw [stackEdges_cons_cons]; exact List.mem_cons_of_mem _ he'')
      · intro e' he'' q hq
        exact hleft e'
          (by rw [stackEdges_cons_cons]; exact List.mem_cons_of_mem _ he'') q hq

/-- Pushing the next point of the sorted sequence into the chain preserves
the edge invariants: edges increase lexicographically and every processed
point (including the new one) is on or to the left of every edge. -/
theorem chainPush_spec (p : Coord) (P : List Coord) (hmax : ∀ q ∈ P, lexLt q p) :
    ∀ (ts : List Coord) (t : Coord),
      (∀ x ∈ t :: ts, x ∈ P) →
      (∀ e ∈ stackEdges (t :: ts), lexLt e.1 e.2) →
      (∀ e ∈ stackEdges (t :: ts), ∀ q ∈ P, 0 ≤ cross e.1 e.2 q) →
      (∀ q ∈ P, lexLe q t ∨ 0 ≤ cross t p q) →
      (∀ q ∈ P, lexLe ((t :: ts).getLast (List.cons_ne_nil t ts)) q) →
      (∀ e ∈ stackEdges (chainPush p (t :: ts)), lexLt e.1 e.2) ∧
      (∀ e ∈ stackEdges (chainPush p (t :: ts)), ∀ q ∈ P ++ [p], 0 ≤ cross e.1 e.2 q) := by
  intro ts
  induction ts with
  | nil =>
    intro t hmem hincr hleft hcov hbot
    rw [chainPush_singleton]
    constructor
    · intro e he
      rw [stackEdges_cons_cons, stackEdges_singleton] at he
      rcases List.mem_singleton.mp he with rfl
      exact hmax t (hmem t (List.mem_cons_self _ _))
    · intro e he q hq
      rw [stackEdges_cons_cons, stackEdges_singleton] at he
      rcases List.mem_singleton.mp he with rfl
      rcases List.mem_append.mp hq with hqP | hqp
      · rcases hcov q hqP with hle | hgood
        · have hbt : lexLe t q := hbot q hqP
          have hqt : q = t := lexLe_antisymm q t hle hbt
          rw [hqt]
          exact le_of_eq (cross_right_self t p).symm
        · exact hgood
      · have hpq : p = q := (List.mem_singleton.mp hqp).symm
        rw [← hpq]
        exact le_of_eq (cross_self t p).symm
  | cons a ts' ih =>
    intro t hmem hincr hleft hcov hbot
    rw [chainPush_cons_cons]
    by_cases hc : cross a t p ≤ 0
    · rw [if_pos hc]
      refine ih a ?_ ?_ ?_ ?_ ?_
      · intro x hx
        exact hmem x (List.mem_cons_of_mem t hx)
      · intro e he
        exact hincr e (by rw [stackEdges_cons_cons]; exact List.mem_cons_of_mem _ he)
      · intro e he q hq
        exact hleft e
          (by rw [stackEdges_cons_cons]; exact List.mem_cons_of_mem _ he) q hq
      · intro q hq
        rcases lex_total q a with hle | hlt
        · exact Or.inl hle
        · refine Or.inr (cross_step_pop a t p q ?_ hc ?_ (Or.inl hlt) ?_)
          · exact hleft (a, t)
              (by rw [stackEdges_cons_cons]; exact List.mem_cons_self _ _) q hq
          · exact hincr (a, t)
              (by rw [stackEdges_cons_cons]; exact List.mem_cons_self _ _)
          · exact lexLt_fst_le a p (hmax a (hmem a (List.mem_cons_of_mem t (List.mem_cons_self _ _))))
      · intro q hq
        have := hbot q hq
        rwa [List.getLast_cons (List.cons_ne_nil a ts')] at this
    · rw [if_neg hc]
      have hps : 0 < cross a t p := lt_of_not_le hc
      have hat : (a, t) ∈ stackEdges (t :: a :: ts') := by
        rw [stackEdges_cons_cons]
        exact List.mem_cons_self _ _
      constructor
      · intro e he
        rw [stackEdges_cons_cons] at he
        rcases List.mem_cons.mp he with rfl | he'
        · exact hmax t (hmem t (List.mem_cons_self _ _))
        · exact hincr e he'
      · intro e he q hq
        rw [stackEdges_cons_cons] at he
        rcases List.mem_append.mp hq with hqP | hqp
        · rcases List.mem_cons.mp he with rfl | he'
          · rcases hcov q hqP with hle | hgood
            · exact cross_step_push a t p q (hleft (a, t) hat q hqP) hps
                (hincr (a, t) hat) hle (hmax t (hmem t (List.mem_cons_self _ _)))
            · exact hgood
          · exact hleft e he' q hqP
        · have hpq : p = q := (List.mem_singleton.mp hqp).symm
          rcases List.mem_cons.mp he with rfl | he'
          · rw [← hpq]
            exact le_of_eq (cross_self t p).symm
          · rw [← hpq]
            exact stack_left_descend p P hmax ts' a t hmem hincr hleft hps.le e he'

/-! ## The chain invariant is preserved -/

theorem pairwise_head_le (h0 : Coord) (P' : List Coord)
    (hp : (h0 :: P').Pairwise lexLt) : ∀ q ∈ h0 :: P', lexLe h0 q := by
  intro q hq
  rcases List.mem_cons.mp hq with rfl | hq'
  · exact Or.inr rfl
  · exact Or.inl ((List.pairwise_cons.mp hp).1 q hq')

theorem pairwise_le_getLast (P : List Coord) :
    ∀ (hne : P ≠ []), P.Pairwise lexLt → ∀ q ∈ P, lexLe q (P.getLast hne) := by
  induction P with
  | nil => intro hne; cases hne rfl
  | cons x P' ih =>
    intro hne hp q hq
    cases P' with
    | nil =>
      have hqx : q = x := List.mem_singleton.mp hq
      subst hqx
      exact Or.inr rfl
    | cons y P'' =>
      rw [List.getLast_cons (List.cons_ne_nil y P'')]
      rcases List.mem_cons.mp hq with rfl | hq'
      · have hmem : (y :: P'').getLast (List.cons_ne_nil y P'') ∈ y :: P'' :=
          List.getLast_mem (List.cons_ne_nil y P'')
        exact Or.inl ((List.pairwise_cons.mp hp).1 _ hmem)
      · exact ih (List.cons_ne_nil y P'') (List.pairwise_cons.mp hp).2 q hq'

theorem chainPush_inv (P S : List Coord) (p : Coord) (inv : ChainInv P S)
    (hP : P.Pairwise lexLt) (hmax : ∀ q ∈ P, lexLt q p) :
    ChainInv (P ++ [p]) (chainPush p S) := by
  obtain ⟨t, ts, rfl⟩ := List.exists_cons_of_ne_nil inv.ne
  have hPne : P ≠ [] := by
    intro h
    subst h
    exact absurd (inv.mem t (List.mem_cons_self t ts)) (List.not_mem_nil t)
  have htopP : P.getLast hPne = t := by
    have h1 : P.getLast? = some t := by rw [← inv.top]; rfl
    have h2 : P.getLast? = some (P.getLast hPne) := List.getLast?_eq_getLast P hPne
    have := h2.symm.trans h1
    exact Option.some.inj this
  have hbot : ∀ q ∈ P, lexLe ((t :: ts).getLast (List.cons_ne_nil t ts)) q := by
    obtain ⟨h0, P', rfl⟩ := List.exists_cons_of_ne_nil hPne
    have hlast : (t :: ts).getLast (List.cons_ne_nil t ts) = h0 := by
      have h1 : (t :: ts).getLast? = some h0 := by rw [inv.bot]; rfl
      have h2 : (t :: ts).getLast? = some ((t :: ts).getLast (List.cons_ne_nil t ts)) :=
        List.getLast?_eq_getLast _ _
      exact Option.some.inj (h2.symm.trans h1)
    rw [hlast]
    exact pairwise_head_le h0 P' hP
  have hcov : ∀ q ∈ P, lexLe q t ∨ 0 ≤ cross t p q := fun q hq =>
    Or.inl (htopP ▸ pairwise_le_getLast P hPne hP q hq)
  obtain ⟨hincr, hleft⟩ :=
    chainPush_spec p P hmax ts t inv.mem inv.incr inv.left hcov hbot
  obtain ⟨S', hS'⟩ := chainPush_cons p (t :: ts)
  refine ⟨?_, ?_, ?_, ?_, hincr, hleft⟩
  · rw [hS']
    exact List.cons_ne_nil p S'
  · rw [hS']
    simp [List.getLast?_concat]
  · rw [chainPush_getLast? p (t :: ts) (List.cons_ne_nil t ts), inv.bot]
    obtain ⟨h0, P', rfl⟩ := List.exists_cons_of_ne_nil hPne
    rfl
  · intro x hx
    rcases chainPush_mem p (t :: ts) x hx with rfl | h
    · exact List.mem_append_right P (List.mem_singleton.mpr rfl)
    · exact List.mem_append_left [p] (inv.mem x h)

theorem buildChain_inv (pts : List Coord) :
    ∀ P S : List Coord, ChainInv P S → (P ++ pts).Pairwise lexLt →
      ChainInv (P ++ pts) (buildChain pts S) := by
  induction pts with
  | nil =>
    intro P S inv hp
    simpa using inv
  | cons x pts' ih =>
    intro P S inv hp
    have hparts := List.pairwise_append.mp hp
    have hmax : ∀ q ∈ P, lexLt q x :=
      fun q hq => hparts.2.2 q hq x (List.mem_cons_self x pts')
    have step := chainPush_inv P S x inv hparts.1 hmax
    have hp' : ((P ++ [x]) ++ pts').Pairwise lexLt := by
      rw [List.append_assoc]
      simpa using hp
    have := ih (P ++ [x]) (chainPush x S) step hp'
    rw [List.append_assoc] at this
    simpa using this

/-- The full chain invariant for the lower hull of a sorted duplicate-free
point list. -/
theorem buildChain_full (l : List Coord) (hl : l ≠ []) (hp : l.Pairwise lexLt) :
    ChainInv l (buildChain l []) := by
  obtain ⟨x, xs, rfl⟩ := List.exists_cons_of_ne_nil hl
  have hbase : ChainInv [x] [x] := by
    refine ⟨List.cons_ne_nil x [], rfl, rfl, ?_, ?_, ?_⟩
    · intro y hy
      exact hy
    · intro e he
      rw [stackEdges_singleton] at he
      exact absurd he (List.not_mem_nil e)
    · intro e he
      rw [stackEdges_singleton] at he
      exact absurd he (List.not_mem_nil e)
  have : buildChain (x :: xs) [] = buildChain xs [x] := rfl
  rw [this]
  have := buildChain_inv xs [x] [x] hbase (by simpa using hp)
  simpa using this

/-! ## The upper chain, by central symmetry -/

theorem pointNeg_pointNeg (p : Coord) : pointNeg (pointNeg p) = p := by
  unfold pointNeg
  simp

theorem cross_pointNeg (o a b : Coord) :
    cross (pointNeg o) (pointNeg a) (pointNeg b) = cross o a b := by
  unfold cross pointNeg
  ring

theorem lexLt_pointNeg (a b : Coord) : lexLt (pointNeg b) (pointNeg a) ↔ lexLt a b := by
  unfold lexLt pointNeg
  dsimp only
  constructor
  · rintro (h | ⟨h, h2⟩)
    · exact Or.inl (by linarith)
    · exact Or.inr ⟨by linarith, by linarith⟩
  · rintro (h | ⟨h, h2⟩)
    · exact Or.inl (by linarith)
    · exact Or.inr ⟨by linarith, by linarith⟩

theorem map_pointNeg_map_pointNeg (l : List Coord) :
    (l.map pointNeg).map pointNeg = l := by
  rw [List.map_map]
  have : (pointNeg ∘ pointNeg) = id := by
    funext p
    exact pointNeg_pointNeg p
  rw [this, List.map_id]

theorem chainPush_pointNeg (p : Coord) (S : List Coord) :
    chainPush (pointNeg p) (S.map pointNeg) = (chainPush p S).map pointNeg := by
  induction S with
  | nil => rfl
  | cons b s ih =>
    cases s with
    | nil => rfl
    | cons a s' =>
      rw [List.map_cons, List.map_cons, chainPush_cons_cons, chainPush_cons_cons,
        cross_pointNeg]
      by_cases h : cross a b p ≤ 0
      · rw [if_pos h, if_pos h]
        simpa using ih
      · rw [if_neg h, if_neg h]
        rfl

theorem buildChain_pointNeg (pts : List Coord) :
    ∀ S, buildChain (pts.map pointNeg) (S.map pointNeg) = (buildChain pts S).map pointNeg := by
  induction pts with
  | nil =>
    intro S
    rfl
  | cons x pts' ih =>
    intro S
    rw [List.map_cons]
    show buildChain (pts'.map pointNeg) (chainPush (pointNeg x) (S.map pointNeg)) = _
    rw [chainPush_pointNeg]
    exact ih (chainPush x S)

theorem stackEdges_map_pointNeg (S : List Coord) :
    stackEdges (S.map pointNeg) =
      (stackEdges S).map (fun e => (pointNeg e.1, pointNeg e.2)) := by
  induction S with
  | nil => rfl
  | cons b s ih =>
    cases s with
    | nil => rfl
    | cons a s' =>
      show (pointNeg a, pointNeg b) :: stackEdges ((a :: s').map pointNeg) =
        ((a, b) :: stackEdges (a :: s')).map (fun e => (pointNeg e.1, pointNeg e.2))
      rw [ih, List.map_cons]

/-! ## Ring edges of concatenated chains -/

theorem ringEdges_cons_cons (x y : Coord) (t : List Coord) :
    ringEdges (x :: y :: t) = (x, y) :: ringEdges (y :: t) := rfl

theorem ringEdges_singleton (x : Coord) : ringEdges [x] = [] := rfl

theorem ringEdges_append (l₂ : List Coord) (h₂ : l₂ ≠ []) :
    ∀ (l₁ : List Coord) (h₁ : l₁ ≠ []),
      ringEdges (l₁ ++ l₂) =
        ringEdges l₁ ++ (l₁.getLast h₁, l₂.head h₂) :: ringEdges l₂ := by
  intro l₁
  induction l₁ with
  | nil => intro h₁; cases h₁ rfl
  | cons x l₁' ih =>
    intro h₁
    cases l₁' with
    | nil =>
      obtain ⟨y, t, rfl⟩ := List.exists_cons_of_ne_nil h₂
      rfl
    | cons z l₁'' =>
      have hne : z :: l₁'' ≠ [] := List.cons_ne_nil z l₁''
      have hstep : (x :: z :: l₁'') ++ l₂ = x :: z :: (l₁'' ++ l₂) := rfl
      rw [hstep, ringEdges_cons_cons]
      have := ih hne
      rw [show (z :: l₁'') ++ l₂ = z :: (l₁'' ++ l₂) from rfl] at this
      rw [this, ringEdges_cons_cons, List.getLast_cons hne]
      rfl

theorem stackEdges_reverse (S : List Coord) :
    stackEdges S = (ringEdges S.reverse).reverse := by
  induction S with
  | nil => rfl
  | cons b s ih =>
    cases s with
    | nil => rfl
    | cons a s' =>
      have hrev : (a :: s').reverse ≠ [] := by simp
      have hLast : (a :: s').reverse.getLast hrev = a := by
        have h1 : (a :: s').reverse.getLast? = some a := by
          rw [List.getLast?_reverse]
          rfl
        have h2 := List.getLast?_eq_getLast ((a :: s').reverse) hrev
        exact Option.some.inj (h2.symm.trans h1)
      rw [stackEdges_cons_cons, List.reverse_cons,
        ringEdges_append [b] (List.cons_ne_nil b []) ((a :: s').reverse) hrev,
        hLast]
      rw [List.reverse_append]
      simp only [List.reverse_cons, List.reverse_nil, List.nil_append, List.head_cons,
        ringEdges_singleton, List.singleton_append, List.cons_append, List.nil_append]
      rw [ih, List.reverse_cons]

theorem mem_stackEdges_iff_mem_ringEdges_reverse (S : List Coord) (e : Coord × Coord) :
    e ∈ stackEdges S ↔ e ∈ ringEdges S.reverse := by
  rw [stackEdges_reverse, List.mem_reverse]

/-! ## The sorted deduplicated hull points -/

theorem lexLt_irrefl (a : Coord) : ¬lexLt a a := by
  rintro (h | ⟨_, h⟩) <;> exact lt_irrefl _ h

theorem hullPoints_pairwise (pts : List Coord) : (hullPoints pts).Pairwise lexLt := by
  unfold hullPoints
  have hsorted : (List.insertionSort lexLe pts.dedup).Pairwise lexLe :=
    List.sorted_insertionSort lexLe pts.dedup
  have hnodup : (List.insertionSort lexLe pts.dedup).Nodup :=
    (List.perm_insertionSort lexLe pts.dedup).nodup_iff.mpr (List.nodup_dedup pts)
  refine (hsorted.and hnodup).imp ?_
  rintro a b ⟨hle, hne⟩
  rcases hle with hlt | rfl
  · exact hlt
  · exact absurd rfl hne

theorem mem_hullPoints (pts : List Coord) (q : Coord) : q ∈ hullPoints pts ↔ q ∈ pts := by
  unfold hullPoints
  rw [(List.perm_insertionSort lexLe pts.dedup).mem_iff, List.mem_dedup]

theorem head_eq_of_head?_eq (l : List Coord) (hne : l ≠ []) (a : Coord)
    (h : l.head? = some a) : l.head hne = a :=
  Option.some.inj ((List.head?_eq_head hne).symm.trans h)

theorem getLast_eq_of_getLast?_eq (l : List Coord) (hne : l ≠ []) (a : Coord)
    (h : l.getLast? = some a) : l.getLast hne = a :=
  Option.some.inj ((List.getLast?_eq_getLast l hne).symm.trans h)

/-- The facts needed about the upper chain, obtained by applying the
lower-chain invariant to the centrally symmetric point list. -/
theorem upperChain_facts (s : List Coord) (hne : s ≠ []) (hp : s.Pairwise lexLt) :
    buildChain s.reverse [] ≠ [] ∧
    (buildChain s.reverse []).head? = s.head? ∧
    (buildChain s.reverse []).getLast? = s.getLast? ∧
    (∀ x ∈ buildChain s.reverse [], x ∈ s) ∧
    (∀ e ∈ stackEdges (buildChain s.reverse []), ∀ q ∈ s, 0 ≤ cross e.1 e.2 q) := by
  have hnsne : s.reverse.map pointNeg ≠ [] := by
    simp [hne]
  have hnsp : (s.reverse.map pointNeg).Pairwise lexLt := by
    refine List.pairwise_map.mpr ?_
    have hrev : s.reverse.Pairwise (fun a b => lexLt b a) := List.pairwise_reverse.mpr hp
    exact hrev.imp (fun {a b} hba => (lexLt_pointNeg b a).mpr hba)
  have invN := buildChain_full (s.reverse.map pointNeg) hnsne hnsp
  have hUS : buildChain s.reverse [] = (buildChain (s.reverse.map pointNeg) []).map pointNeg := by
    have h1 : s.reverse = (s.reverse.map pointNeg).map pointNeg :=
      (map_pointNeg_map_pointNeg s.reverse).symm
    calc buildChain s.reverse []
        = buildChain ((s.reverse.map pointNeg).map pointNeg) [] := by rw [← h1]
      _ = (buildChain (s.reverse.map pointNeg) []).map pointNeg := by
          have := buildChain_pointNeg (s.reverse.map pointNeg) []
          simpa using this
  refine ⟨?_, ?_, ?_, ?_, ?_⟩
  · rw [hUS]
    simpa using invN.ne
  · rw [hUS, List.head?_map, invN.top, List.getLast?_map, List.getLast?_reverse]
    cases s.head? with
    | none => rfl
    | some a => simp [pointNeg_pointNeg]
  · rw [hUS, List.getLast?_map, invN.bot, List.head?_map, List.head?_reverse]
    cases s.getLast? with
    | none => rfl
    | some a => simp [pointNeg_pointNeg]
  · intro x hx
    rw [hUS] at hx
    obtain ⟨y, hy, rfl⟩ := List.mem_map.mp hx
    have hyns := invN.mem y hy
    obtain ⟨z, hz, rfl⟩ := List.mem_map.mp hyns
    rw [pointNeg_pointNeg]
    exact List.mem_reverse.mp hz
  · intro e he q hq
    rw [hUS, stackEdges_map_pointNeg] at he
    obtain ⟨e', he', rfl⟩ := List.mem_map.mp he
    have hq' : pointNeg q ∈ s.reverse.map pointNeg :=
      List.mem_map.mpr ⟨q, List.mem_reverse.mpr hq, rfl⟩
    have hleft := invN.left e' he' (pointNeg q) hq'
    have hc : cross (pointNeg e'.1) (pointNeg e'.2) q = cross e'.1 e'.2 (pointNeg q) := by
      conv_lhs => rw [← pointNeg_pointNeg q]
      exact cross_pointNeg e'.1 e'.2 (pointNeg q)
    show 0 ≤ cross (pointNeg e'.1) (pointNeg e'.2) q
    rw [hc]
    exact hleft

/-- Full correctness of the hull ring: a nondegenerate hull ring is
closed, its vertices are input points, and every input point lies on or to
the left of every (counterclockwise) ring edge — which makes the ring the
convex hull of the points. -/
theorem hullRing_spec (pts : List Coord) (hlen : 3 < (hullRing pts).length) :
    (hullRing pts).head? = (hullRing pts).getLast? ∧
    (∀ v ∈ hullRing pts, v ∈ pts) ∧
    (∀ e ∈ ringEdges (hullRing pts), ∀ q ∈ pts, 0 ≤ cross e.1 e.2 q) := by
  cases hs0 : hullPoints pts with
  | nil =>
    exfalso
    have hre : hullRing pts = [] := by
      simp only [hullRing, hs0]
      rfl
    rw [hre] at hlen
    simp at hlen
  | cons x s1 =>
    cases hs1 : s1 with
    | nil =>
      exfalso
      subst hs1
      have hre : hullRing pts = [] := by
        simp only [hullRing, hs0]
        rfl
      rw [hre] at hlen
      simp at hlen
    | cons y s2 =>
      subst hs1
      have hss : hullPoints pts = x :: y :: s2 := hs0
      have hsne : hullPoints pts ≠ [] := by
        rw [hss]
        exact List.cons_ne_nil _ _
      have hsp : (hullPoints pts).Pairwise lexLt := hullPoints_pairwise pts
      have hsp' : (x :: y :: s2).Pairwise lexLt := hss ▸ hsp
      have invL := buildChain_full (hullPoints pts) hsne hsp
      obtain ⟨M, LS', hLS⟩ := List.exists_cons_of_ne_nil invL.ne
      obtain ⟨hUne, hUhead, hUlast, hUmem, hUleft⟩ :=
        upperChain_facts (hullPoints pts) hsne hsp
      obtain ⟨mU, US', hUS⟩ := List.exists_cons_of_ne_nil hUne
      have hshead : (hullPoints pts).head? = some x := by
        rw [hss]
        rfl
      have htail_last : (hullPoints pts).getLast? =
          some ((y :: s2).getLast (List.cons_ne_nil y s2)) := by
        rw [hss, show (x :: y :: s2).getLast? = (y :: s2).getLast? from
          List.getLast?_cons_cons, List.getLast?_eq_getLast (y :: s2) (List.cons_ne_nil y s2)]
      have hmU : mU = x := by
        have h1 : (buildChain (hullPoints pts).reverse []).head? = some mU := by
          rw [hUS]
          rfl
        exact Option.some.inj (h1.symm.trans (hUhead.trans hshead))
      have hsLast : (hullPoints pts).getLast? = some M := by
        have h1 : (buildChain (hullPoints pts) []).head? = some M := by
          rw [hLS]
          rfl
        exact invL.top.symm.trans h1
      have hMval : M = (y :: s2).getLast (List.cons_ne_nil y s2) :=
        Option.some.inj (hsLast.symm.trans htail_last)
      have hMx : x ≠ M := by
        intro h
        have hmem : (y :: s2).getLast (List.cons_ne_nil y s2) ∈ y :: s2 :=
          List.getLast_mem (List.cons_ne_nil y s2)
        have hlt : lexLt x ((y :: s2).getLast (List.cons_ne_nil y s2)) :=
          (List.pairwise_cons.mp hsp').1 _ hmem
        rw [← hMval, ← h] at hlt
        exact lexLt_irrefl x hlt
      have hLS' : LS' ≠ [] := by
        intro hnil
        have h1 : (buildChain (hullPoints pts) []).getLast? = some M := by
          rw [hLS, hnil]
          rfl
        have h2 := h1.symm.trans (invL.bot.trans hshead)
        exact hMx (Option.some.inj h2.symm)
      have hUS'ne : US' ≠ [] := by
        intro hnil
        have h1 : (buildChain (hullPoints pts).reverse []).getLast? = some mU := by
          rw [hUS, hnil]
          rfl
        have h2 : some M = some mU := hsLast.symm.trans (hUlast.symm.trans h1)
        rw [hmU] at h2
        exact hMx (Option.some.inj h2.symm)
      obtain ⟨c, LS'', hLS''⟩ := List.exists_cons_of_ne_nil hLS'
      have hAne : LS'.reverse ≠ [] := by
        simpa using hLS'
      have hAhead : LS'.reverse.head? = some x := by
        rw [List.head?_reverse]
        have h2 := invL.bot
        rw [hLS, hLS''] at h2
        rw [hLS'']
        rw [List.getLast?_cons_cons] at h2
        exact h2.trans hshead
      obtain ⟨x0, A', hA⟩ := List.exists_cons_of_ne_nil hAne
      have hx0 : x0 = x := by
        have h1 : LS'.reverse.head? = some x0 := by
          rw [hA]
          rfl
        exact Option.some.inj (h1.symm.trans hAhead)
      subst hx0
      have hre : hullRing pts = (x0 :: A') ++ (mU :: US').reverse := by
        have hrdef : hullRing pts =
            match (buildChain (hullPoints pts) []).reverse.dropLast ++
                  (buildChain (hullPoints pts).reverse []).reverse.dropLast with
            | [] => []
            | h :: t => h :: (t ++ [h]) := rfl
        rw [hrdef, hLS, hUS, List.reverse_cons, List.dropLast_concat,
          List.reverse_cons, List.dropLast_concat, hA]
        show x0 :: ((A' ++ US'.reverse) ++ [x0]) = (x0 :: A') ++ (US'.reverse ++ [mU])
        rw [hmU]
        simp [List.append_assoc]
      have hBne : (mU :: US').reverse ≠ [] := by
        simp
      have hBhead : (mU :: US').reverse.head? = some M := by
        rw [List.head?_reverse]
        show (mU :: US').getLast? = some M
        rw [← hUS, hUlast]
        exact hsLast
      have hhead : (hullRing pts).head? = some x0 := by
        rw [hre]
        rfl
      have hlast : (hullRing pts).getLast? = some x0 := by
        rw [hre, List.getLast?_append_of_ne_nil (x0 :: A') hBne, List.getLast?_reverse]
        show some mU = some x0
        rw [hmU]
      refine ⟨hhead.trans hlast.symm, ?_, ?_⟩
      · intro v hv
        rw [hre] at hv
        rcases List.mem_append.mp hv with hvA | hvB
        · have hv1 : v ∈ LS'.reverse := by
            rw [hA]
            exact hvA
          have hv2 : v ∈ M :: LS' := List.mem_cons_of_mem M (List.mem_reverse.mp hv1)
          exact (mem_hullPoints pts v).mp (invL.mem v (hLS ▸ hv2))
        · have hv1 : v ∈ mU :: US' := List.mem_reverse.mp hvB
          exact (mem_hullPoints pts v).mp (hUmem v (hUS ▸ hv1))
      · intro e he q hq
        have hqs : q ∈ hullPoints pts := (mem_hullPoints pts q).mpr hq
        rw [hre, ringEdges_append ((mU :: US').reverse) hBne (x0 :: A')
          (List.cons_ne_nil x0 A')] at he
        rcases List.mem_append.mp he with heA | heJB
        · have heA' : e ∈ ringEdges LS'.reverse := by
            rw [hA]
            exact heA
          have h1 : e ∈ ringEdges ((M :: LS').reverse) := by
            rw [List.reverse_cons,
              ringEdges_append [M] (List.cons_ne_nil M []) LS'.reverse hAne]
            exact List.mem_append_left _ heA'
          have h2 : e ∈ stackEdges (M :: LS') :=
            (mem_stackEdges_iff_mem_ringEdges_reverse (M :: LS') e).mpr h1
          exact invL.left e (hLS ▸ h2) q hqs
        · rcases List.mem_cons.mp heJB with rfl | heB
          · have hAlast : (x0 :: A').getLast (List.cons_ne_nil x0 A') = c := by
              refine getLast_eq_of_getLast?_eq _ _ c ?_
              rw [← hA, List.getLast?_reverse, hLS'']
              rfl
            have hBheadval : (mU :: US').reverse.head hBne = M :=
              head_eq_of_head?_eq _ hBne M hBhead
            show 0 ≤ cross ((x0 :: A').getLast (List.cons_ne_nil x0 A'))
              ((mU :: US').reverse.head hBne) q
            rw [hAlast, hBheadval]
            have hmemE : ((c : Coord), M) ∈ stackEdges (M :: LS') := by
              rw [hLS'', stackEdges_cons_cons]
              exact List.mem_cons_self _ _
            exact invL.left (c, M) (hLS ▸ hmemE) q hqs
          · have h2 : e ∈ stackEdges (mU :: US') :=
              (mem_stackEdges_iff_mem_ringEdges_reverse (mU :: US') e).mpr heB
            exact hUleft e (hUS ▸ h2) q hqs

/-- C8 counterexample: the claim fails on the code.  Three collinear
points are a valid input of at least three points, yet
`createBoundaryFromPoints` does not return a Polygon feature on them: the
hull degenerates and the null result is returned instead. -/
theorem hull_degenerate_counterexample :
    3 ≤ ([((0 : ℚ), (0 : ℚ)), ((1 : ℚ), (0 : ℚ)), ((2 : ℚ), (0 : ℚ))] : List Coord).length ∧
    createBoundaryFromPoints [((0 : ℚ), (0 : ℚ)), ((1 : ℚ), (0 : ℚ)), ((2 : ℚ), (0 : ℚ))] =
      .ok none := by
  refine ⟨by simp, ?_⟩
  rw [createBoundaryFromPoints, if_neg (by norm_num)]
  norm_num [turf_convex, hullRing, hullPoints, buildChain, chainPush, cross, lexLe, lexLt,
    List.insertionSort, List.orderedInsert, List.dedup, List.pwFilter, Prod.ext_iff]

/-- C8 (amended): for every input of at least three points on which the
hull computation returns a feature (a non-degenerate hull), the result is
a single Polygon feature with exactly one ring, the ring is closed (first
position repeated as last), every ring vertex is an input point, every
input point lies on or to the left of every directed ring edge (so the
ring is the convex hull of the points, traversed counterclockwise), and in
particular each ring vertex is on or to the left of each edge, so the
winding is consistent.  (Degenerate point sets instead yield the null
result: see the counterexample.) -/
theorem createBoundaryFromPoints_hull_spec (pts : List Coord) (f : Feature)
    (hlen : 3 ≤ pts.length)
    (hf : createBoundaryFromPoints pts = .ok (some f)) :
    ∃ ring, f = ⟨.polygon [ring], []⟩ ∧ 3 < ring.length ∧
      ring.head? = ring.getLast? ∧
      (∀ v ∈ ring, v ∈ pts) ∧
      (∀ e ∈ ringEdges ring, ∀ q ∈ pts, 0 ≤ cross e.1 e.2 q) ∧
      (∀ e ∈ ringEdges ring, ∀ v ∈ ring, 0 ≤ cross e.1 e.2 v) := by
  rw [createBoundaryFromPoints, if_neg (by omega)] at hf
  have hconv : turf_convex pts = some f := Except.ok.inj hf
  rw [show turf_convex pts =
      if 3 < (hullRing pts).length then
        some ⟨.polygon [hullRing pts], []⟩
      else none from rfl] at hconv
  by_cases h3 : 3 < (hullRing pts).length
  · rw [if_pos h3] at hconv
    have hfeq : f = ⟨.polygon [hullRing pts], []⟩ := (Option.some.inj hconv).symm
    obtain ⟨hclosed, hverts, hleft⟩ := hullRing_spec pts h3
    refine ⟨hullRing pts, hfeq, h3, hclosed, hverts, hleft, ?_⟩
    intro e he v hv
    exact hleft e he v (hverts v hv)
  · rw [if_neg h3] at hconv
    exact Option.noConfusion hconv

theorem createBoundaryFromPoints_hull_spec_witness :
    ∃ ring, (⟨.polygon [[((0 : ℚ), (0 : ℚ)), ((1 : ℚ), (0 : ℚ)), ((1 : ℚ), (1 : ℚ)),
        ((0 : ℚ), (1 : ℚ)), ((0 : ℚ), (0 : ℚ))]], []⟩ : Feature) = ⟨.polygon [ring], []⟩ ∧
      3 < ring.length ∧
      ring.head? = ring.getLast? ∧
      (∀ v ∈ ring, v ∈ ([((0 : ℚ), (0 : ℚ)), ((1 : ℚ), (0 : ℚ)), ((1 : ℚ), (1 : ℚ)),
        ((0 : ℚ), (1 : ℚ))] : List Coord)) ∧
      (∀ e ∈ ringEdges ring, ∀ q ∈ ([((0 : ℚ), (0 : ℚ)), ((1 : ℚ), (0 : ℚ)),
        ((1 : ℚ), (1 : ℚ)), ((0 : ℚ), (1 : ℚ))] : List Coord), 0 ≤ cross e.1 e.2 q) ∧
      (∀ e ∈ ringEdges ring, ∀ v ∈ ring, 0 ≤ cross e.1 e.2 v) :=
  createBoundaryFromPoints_hull_spec
    [((0 : ℚ), (0 : ℚ)), ((1 : ℚ), (0 : ℚ)), ((1 : ℚ), (1 : ℚ)), ((0 : ℚ), (1 : ℚ))]
    ⟨.polygon [[((0 : ℚ), (0 : ℚ)), ((1 : ℚ), (0 : ℚ)), ((1 : ℚ), (1 : ℚ)),
      ((0 : ℚ), (1 : ℚ)), ((0 : ℚ), (0 : ℚ))]], []⟩
    (by simp)
    (by
      rw [createBoundaryFromPoints, if_neg (by norm_num)]
      norm_num [turf_convex, hullRing, hullPoints, buildChain, chainPush, cross, lexLe,
        lexLt, List.insertionSort, List.orderedInsert, List.dedup, List.pwFilter,
        Prod.ext_iff])

end JoinGeoJSON
